import Mathlib

/-!
Verification of the GroupBuilder assignment engine against its specification.

The definitions below are a shallow embedding of the repository's Python code:

  * `src/assignment_logic/src/assignment_logic/group_builder.py` (class `GroupBuilder`):
    CP-SAT model construction, incremental batched solving, decoding.
  * `src/api/src/api/routers/assignments.py`: single-session regeneration.
  * `src/api/src/api/utils/dataframe_to_participant_dict.py`: roster normalization.

A CP-SAT model's feasibility is embedded as a predicate over a total boolean
assignment function `x : pid → session → table → Bool` mirroring the decision
variables `participant_table_assignments[(participant_id, session, table)]`.
Integer auxiliary variables introduced by the code (`NewIntVar(0, N)`) become
bounded existentials, so that a feasible solution of the Python model is
exactly an assignment satisfying the predicate.
-/

/-- Participant record as produced by `dataframe_to_participant_dict` and
consumed by `GroupBuilder`: keys `id`, `name`, `religion`, `gender`,
`partner`, `couple_id`, `is_facilitator`. -/
structure Participant where
  id : Nat
  name : String
  religion : String
  gender : String
  partner : Option String := none
  coupleId : Option Nat := none
  isFacilitator : Bool := false
deriving DecidableEq, Repr

/-- Participant view emitted by the decoder in `_run_solver`:
`{name, religion, gender, partner}`. -/
structure ParticipantView where
  name : String
  religion : String
  gender : String
  partner : Option String := none
deriving DecidableEq, Repr

/-- The decoder's projection of a participant dict to its output view. -/
def toView (p : Participant) : ParticipantView :=
  { name := p.name, religion := p.religion, gender := p.gender, partner := p.partner }

/-- Valuation of the decision variables `x[(pid, session, table)]`. -/
def Assignment : Type := Nat → Nat → Nat → Bool

/-- Sum over tables `Σₜ x[p,s,t]` (each variable is 0/1, so the sum is a count
of true variables over `t ∈ range T`). -/
def seatCount (x : Assignment) (pid s T : Nat) : Nat :=
  (List.range T).countP (fun t => x pid s t)

/-- Table head-count `Σₚ x[p,s,t]` (`table_participant_count` in
`_add_constraints_to_model`). -/
def tableCount (ps : List Participant) (x : Assignment) (s t : Nat) : Nat :=
  ps.countP (fun p => x p.id s t)

/-- Per-attribute-value head-count `table_participant_count_per_attribute` in
`_add_participant_attribute_distribution_constraint`: only participants with
`p[attribute_name] == attribute_value` are summed. -/
def attrCount (ps : List Participant) (f : Participant → String) (v : String)
    (x : Assignment) (s t : Nat) : Nat :=
  (ps.filter (fun p => decide (f p = v))).countP (fun p => x p.id s t)

/-- Members of one couple group: the code groups participants by truthy
`couple_id` (`couples[p["couple_id"]].append(p)`). -/
def coupleGroup (ps : List Participant) (c : Nat) : List Participant :=
  ps.filter (fun p => decide (p.coupleId = some c))

/-- Key of a decision variable / of the locked-assignments dict:
`(participant_id, session, table)`. -/
abbrev LockKey := Nat × Nat × Nat

/-- A Python dict keyed by `LockKey`, embedded as an association list whose
keys are kept unique by `dictSet`. -/
abbrev LockDict := List (LockKey × Bool)

/-- Lookup of the current value of a key (Python `d[k]` / `k in d`). -/
def dictFind (d : LockDict) (k : LockKey) : Option Bool :=
  match d with
  | [] => none
  | e :: rest => if e.1 = k then some e.2 else dictFind rest k

/-- Update `d[k] = v`: last write wins, keys stay unique.  The entry order
differs from CPython's insertion order, which no lookup or iteration in the
embedded code depends on. -/
def dictSet (d : LockDict) (k : LockKey) (v : Bool) : LockDict :=
  (k, v) :: d.filter (fun e => decide (e.1 ≠ k))

/-- Lookup in the `current_table_assignments` dict `participant_id → table`. -/
def natDictFind (d : List (Nat × Nat)) (k : Nat) : Option Nat :=
  match d with
  | [] => none
  | e :: rest => if e.1 = k then some e.2 else natDictFind rest k

/-- Inputs of `GroupBuilder.__init__` that shape the model.  `pairingWindow`
and worker counts only affect the objective and search, not the hard
constraints embedded here. -/
structure ModelInput where
  participants : List Participant
  T : Nat
  S : Nat
  locked : LockDict := []
  currentTable : List (Nat × Nat) := []
  requireDifferent : Bool := false
deriving Repr

/-- Constraint family of `_add_constraints_to_model`, first loop:
`sum(x[(p, s, t)] for t in tables) == 1` for every participant and session. -/
def exactlyOneTable (mi : ModelInput) (x : Assignment) : Prop :=
  ∀ p ∈ mi.participants, ∀ s < mi.S, seatCount x p.id s mi.T = 1

/-- Constraint family of `_add_constraints_to_model`, second loop: per session,
integer variables `max_participants[s], min_participants[s] ∈ [0, N]` with
`max ≥ count_t`, `min ≤ count_t` for every table and `max - min ≤ 1`. -/
def tableSizeBalance (mi : ModelInput) (x : Assignment) : Prop :=
  ∀ s < mi.S, ∃ M < mi.participants.length + 1, ∃ m < mi.participants.length + 1,
    (∀ t < mi.T, tableCount mi.participants x s t ≤ M ∧ m ≤ tableCount mi.participants x s t) ∧
    M ≤ m + 1

/-- Constraint family of `_add_participant_attribute_distribution_constraint`:
the same max/min pattern per session and per attribute value occurring in the
roster (the code iterates `set(participant[attr] for ...)`; iterating the list
of values adds the same constraints, possibly repeated). -/
def attributeSpread (mi : ModelInput) (f : Participant → String) (x : Assignment) : Prop :=
  ∀ s < mi.S, ∀ v ∈ mi.participants.map f,
    ∃ M < mi.participants.length + 1, ∃ m < mi.participants.length + 1,
      (∀ t < mi.T, attrCount mi.participants f v x s t ≤ M ∧
        m ≤ attrCount mi.participants f v x s t) ∧
      M ≤ m + 1

/-- Couple-separation constraints from the head of
`_add_objective_functions_to_model`: for every couple group (grouping key: a
truthy `couple_id`, hence `some c` with `c ≠ 0`), session and table,
`sum(x[(p, s, t)] for p in group) <= 1`. -/
def coupleSeparation (mi : ModelInput) (x : Assignment) : Prop :=
  ∀ p ∈ mi.participants, ∀ c ∈ p.coupleId.toList, c ≠ 0 →
    ∀ s < mi.S, ∀ t < mi.T,
      (coupleGroup mi.participants c).countP (fun q => x q.id s t) ≤ 1

/-- Constraints of `_apply_locked_assignments`: for every entry of the locked
dict whose key is an existing decision variable, `x[key] == value`. -/
def lockedApplied (mi : ModelInput) (x : Assignment) : Prop :=
  ∀ e ∈ mi.locked, e.1.1 ∈ mi.participants.map (·.id) → e.1.2.1 < mi.S → e.1.2.2 < mi.T →
    x e.1.1 e.1.2.1 e.1.2.2 = e.2

/-- Hard branch of the variety-seeking block in
`_add_objective_functions_to_model`: when `require_different_assignments` is
true, for every participant with a current table, `x[(p_id, 0, current)] == 0`
(guarded by `0 in self.sessions and current_table in self.tables`).  The soft
branch only adds objective terms, hence no constraint here. -/
def hardDifferentApplied (mi : ModelInput) (x : Assignment) : Prop :=
  mi.requireDifferent = true →
    ∀ p ∈ mi.participants, ∀ ct ∈ (natDictFind mi.currentTable p.id).toList,
      0 < mi.S → ct < mi.T → x p.id 0 ct = false

/-- Constraint of `_add_symmetry_breaking`: if participants, sessions and
tables are all nonempty, `x[(participants[0].id, 0, 0)] == 1`. -/
def symmetryApplied (mi : ModelInput) (x : Assignment) : Prop :=
  ∀ p0 ∈ mi.participants.head?.toList, 0 < mi.S → 0 < mi.T → x p0.id 0 0 = true

/-- All hard constraints of `generate_assignments` except symmetry breaking:
`_add_constraints_to_model`, the hard parts of
`_add_objective_functions_to_model`, and `_apply_locked_assignments`. -/
def baseSat (mi : ModelInput) (x : Assignment) : Prop :=
  exactlyOneTable mi x ∧ tableSizeBalance mi x ∧
  attributeSpread mi (·.religion) x ∧ attributeSpread mi (·.gender) x ∧
  coupleSeparation mi x ∧ lockedApplied mi x ∧ hardDifferentApplied mi x

/-- The full hard-constraint set of the model built by `generate_assignments`
(`setup_model`, `_add_constraints_to_model`, `_add_objective_functions_to_model`,
`_add_symmetry_breaking`).  A solver status of OPTIMAL or FEASIBLE yields a
valuation of the decision variables satisfying this predicate. -/
def modelSat (mi : ModelInput) (x : Assignment) : Prop :=
  baseSat mi x ∧ symmetryApplied mi x

/-- Participants placed at table `t` of session `s` by `_run_solver`'s decode
loop (`if self.solver.BooleanValue(...): append`), in roster order. -/
def decodeTable (ps : List Participant) (x : Assignment) (s t : Nat) : List Participant :=
  ps.filter (fun p => x p.id s t)

/-- One decoded session: `{"session": s + 1, "tables": {t+1: [views]}}`.  The
Python `defaultdict` only materializes keys of nonempty tables, hence the
`filterMap`. -/
structure SessionData where
  session : Nat
  tables : List (Nat × List ParticipantView)
  absent : Option (List ParticipantView) := none
deriving DecidableEq, Repr

/-- Decode of session `s` from a solved model (`_run_solver`, success case). -/
def decodeSessionData (ps : List Participant) (x : Assignment) (T s : Nat) : SessionData :=
  { session := s + 1,
    tables := (List.range T).filterMap (fun t =>
      let l := (decodeTable ps x s t).map toView
      if l.isEmpty then none else some (t + 1, l)) }

/-- Decode of all sessions from a solved model. -/
def decodeAssignments (ps : List Participant) (x : Assignment) (S T : Nat) : List SessionData :=
  (List.range S).map (decodeSessionData ps x T)

/-- Lookup of a participant id by name, as in
`next(p["id"] for p in self.participants if p["name"] == name)`
(`_lock_batch_assignments` / `_track_historical_pairings`).  The Python
generator raises `StopIteration` when no participant matches; that branch is
modelled as `none` and is unreachable for names coming out of the decoder. -/
def idOfName (ps : List Participant) (n : String) : Option Nat :=
  (ps.find? (fun p => decide (p.name = n))).map (·.id)

/-- Body of `_lock_batch_assignments` for one decoded participant: lock
`(id, session, table) = True` and `(id, session, t') = False` for every other
table `t'`. -/
def lockParticipant (ps : List Participant) (T sIdx tIdx : Nat) (n : String)
    (d : LockDict) : LockDict :=
  match idOfName ps n with
  | none => d
  | some pid =>
    (List.range T).foldl
      (fun acc t => if t = tIdx then acc else dictSet acc (pid, sIdx, t) false)
      (dictSet d (pid, sIdx, tIdx) true)

/-- The `_lock_batch_assignments` method: iterate the decoded session's
`tables.items()`, converting the 1-based session / table numbers back to
0-based indices, and lock every listed participant. -/
def lockBatchAssignments (ps : List Participant) (T : Nat) (a : SessionData)
    (d : LockDict) : LockDict :=
  a.tables.foldl
    (fun acc tbl =>
      tbl.2.foldl (fun acc2 v => lockParticipant ps T (a.session - 1) (tbl.1 - 1) v.name acc2) acc)
    d

/-- Canonical id pair `tuple(sorted([p1_id, p2_id]))` used by
`_track_historical_pairings` and by the objective's membership test. -/
def sortPairNat (i j : Nat) : Nat × Nat :=
  if j < i then (j, i) else (i, j)

/-- All `i < j` index pairs of a table's recovered ids, as sorted id pairs
(ids that failed to resolve are dropped; Python would raise there). -/
def tablePairList : List (Option Nat) → List (Nat × Nat)
  | [] => []
  | none :: rest => tablePairList rest
  | some i :: rest =>
    (rest.filterMap id).map (fun j => sortPairNat i j) ++ tablePairList rest

/-- The `_track_historical_pairings` method: for a decoded session inside the
current batch range, record the id pair of every two participants sharing a
table.  Ids are recovered from names via `idOfName`; the Python set is
embedded as a list (only membership is ever consumed). -/
def trackHistoricalPairings (ps : List Participant) (a : SessionData)
    (batchStart batchEnd : Nat) (hist : List (Nat × Nat)) : List (Nat × Nat) :=
  if batchStart ≤ a.session - 1 ∧ a.session - 1 < batchEnd then
    a.tables.foldl
      (fun h tbl =>
        (tablePairList (tbl.2.map (fun v => idOfName ps v.name))).foldl
          (fun h2 pr => pr :: h2) h)
      hist
  else hist

/-- Result of one `generate_assignments` call as consumed by the incremental
loop: either the decoded assignments of a success dict, or the error string of
a failure dict (which carries no assignments). -/
inductive SolveResult where
  | success : List SessionData → SolveResult
  | failure : String → SolveResult
deriving DecidableEq, Repr

/-- Result of `generate_assignments_incremental`: the merged success dict, or
the first failing batch's failure dict returned verbatim. -/
inductive IncResult where
  | success : List SessionData → IncResult
  | failure : String → IncResult
deriving DecidableEq, Repr

/-- The `assignments` carried by an incremental result: a failure dict has no
`assignments` key. -/
def incResultAssignments : IncResult → List SessionData
  | .success l => l
  | .failure _ => []

/-- Mutable state of the incremental loop: `all_assignments`, `locked`,
`historical_pairings`. -/
structure IncState where
  assignments : List SessionData
  locked : LockDict
  hist : List (Nat × Nat)
deriving Repr

/-- Commit of one successful batch (loop body of
`generate_assignments_incremental` after the failure check): extend
`all_assignments` with the sessions of the batch's own range, then for every
decoded session track historical pairings and lock assignments. -/
def commitBatch (ps : List Participant) (T bs be : Nat)
    (sessions : List SessionData) (st : IncState) : IncState :=
  let st1 : IncState :=
    { st with assignments :=
        st.assignments ++ sessions.filter (fun a =>
          decide (bs ≤ a.session - 1) && decide (a.session - 1 < be)) }
  sessions.foldl
    (fun s a =>
      { s with hist := trackHistoricalPairings ps a bs be s.hist,
               locked := lockBatchAssignments ps T a s.locked })
    st1

/-- An oracle for the per-batch `GroupBuilder(...).generate_assignments`
call.  Arguments: batch index (which fixes the batch's timeout slice), the
modeled session count `batch_end`, the locked dict and the historical
pairings handed to the builder. -/
def BatchSolver : Type :=
  Nat → Nat → LockDict → List (Nat × Nat) → SolveResult

/-- The batch schedule of `generate_assignments_incremental`:
`(index, batch_start, batch_end)` for `batch_start in range(0, S, B)` with
`batch_end = min(batch_start + B, S)`. -/
def batchSchedule (S B : Nat) : List (Nat × Nat × Nat) :=
  (List.range ((S + B - 1) / B)).map (fun k => (k, k * B, min (k * B + B) S))

/-- The loop of `generate_assignments_incremental` over a batch schedule:
solve each batch; on the first non-success result return it verbatim,
otherwise commit and continue; when all batches succeed return the merged
assignments. -/
def incRun (solve : BatchSolver) (ps : List Participant) (T : Nat) :
    List (Nat × Nat × Nat) → IncState → IncResult
  | [], st => .success st.assignments
  | (k, bs, be) :: rest, st =>
    match solve k be st.locked st.hist with
    | .failure e => .failure e
    | .success sessions => incRun solve ps T rest (commitBatch ps T bs be sessions st)

/-- The all-success trace of `incRun`: the state after running a prefix of the
batch schedule, `none` as soon as some batch fails. -/
def incTrace (solve : BatchSolver) (ps : List Participant) (T : Nat) :
    List (Nat × Nat × Nat) → IncState → Option IncState
  | [], st => some st
  | (k, bs, be) :: rest, st =>
    match solve k be st.locked st.hist with
    | .failure _ => none
    | .success sessions => incTrace solve ps T rest (commitBatch ps T bs be sessions st)

/-- A Python value appearing in a pairing key: ids are ints, names are
strings.  The two never compare equal. -/
inductive PyVal where
  | int : Nat → PyVal
  | str : String → PyVal
deriving DecidableEq, Repr

/-- Code-point lexicographic order on character lists, the order Python uses
to compare strings. -/
def charListLt : List Char → List Char → Bool
  | [], [] => false
  | [], _ :: _ => true
  | _ :: _, [] => false
  | c :: cs, d :: ds => if c < d then true else if d < c then false else charListLt cs ds

/-- Python's `<` on strings. -/
def pyStrLt (a b : String) : Bool := charListLt a.data b.data

/-- Pairing key built by `_extract_pairings_from_sessions` in the assignments
router: `tuple(sorted([name1, name2]))` — a pair of NAME strings (Python's
`sorted` on two elements swaps them exactly when the second compares less). -/
def namePairKey (a b : String) : PyVal × PyVal :=
  if pyStrLt b a then (.str b, .str a) else (.str a, .str b)

/-- Pairing key tested by `_add_objective_functions_to_model`:
`tuple(sorted([p1["id"], p2["id"]]))` — a pair of integer IDS. -/
def idPairKey (i j : Nat) : PyVal × PyVal :=
  if j < i then (.int j, .int i) else (.int i, .int j)

/-- All unordered name pairs of one table's participant list (`for i ... for j
in range(i+1, ...)` in `_extract_pairings_from_sessions`). -/
def tableNamePairs : List String → List (PyVal × PyVal)
  | [] => []
  | n :: rest => rest.map (fun n2 => namePairKey n n2) ++ tableNamePairs rest

/-- The `_extract_pairings_from_sessions` helper of the assignments router:
every pair co-seated in any session other than the excluded one.  The Python
set is embedded as a list; only membership is consumed. -/
def extractPairingsFromSessions (assignments : List SessionData)
    (excludeSession : Nat) : List (PyVal × PyVal) :=
  (assignments.filter (fun a => decide (a.session ≠ excludeSession))).flatMap
    (fun a => a.tables.flatMap (fun tbl => tableNamePairs (tbl.2.map (·.name))))

/-- The objective-construction membership test
`pair_key in self.historical_pairings` deciding whether the historical
penalty term `pair_meets_session[s]` is added for the pair `{p1, p2}`
(`penalty_count += pair_meets_session[s]`). -/
def historicalTermAdded (hist : List (PyVal × PyVal)) (p1 p2 : Participant) : Bool :=
  decide (idPairKey p1.id p2.id ∈ hist)

/-- Outcome of one `GroupBuilder(...).generate_assignments(...)` call inside
`regenerate_single_session`, keyed by status. -/
inductive GBResult where
  | ok : List SessionData → GBResult
  | err : String → GBResult
deriving DecidableEq, Repr

/-- Merged regeneration output together with the `assignments_unchanged`
flag. -/
structure RegenSuccess where
  assignments : List SessionData
  unchanged : Bool
deriving DecidableEq, Repr

/-- Merge step of `regenerate_single_session`:
`new_assignments[session_number - 1] = {session, tables of result[0], absent}`.
The `result['assignments'][0]` subscript would raise on an empty list; that
branch is modelled by the empty table map. -/
def mergeRegenerated (existing : List SessionData) (k : Nat)
    (solved : List SessionData) (absent : List ParticipantView) : List SessionData :=
  existing.set (k - 1)
    { session := k,
      tables := match solved with
        | a :: _ => a.tables
        | [] => [],
      absent := some absent }

/-- Control flow of `regenerate_single_session` after the inputs are derived:
attempt 1 with `require_different_assignments=True`; on non-success exactly
one retry with `require_different_assignments=False`; a failing retry raises
with the retry's error.  The oracle `solve` maps the `require_different` flag
of a `GroupBuilder` call to that call's result; the returned list records the
flags of the calls actually made, in order. -/
def regenerateSingleSession (existing : List SessionData) (k : Nat)
    (absent : List ParticipantView) (solve : Bool → GBResult) :
    List Bool × Except String RegenSuccess :=
  match solve true with
  | .ok solved =>
    ([true], .ok { assignments := mergeRegenerated existing k solved absent, unchanged := false })
  | .err _ =>
    match solve false with
    | .ok solved =>
      ([true, false],
        .ok { assignments := mergeRegenerated existing k solved absent, unchanged := true })
    | .err e => ([true, false], .error e)

/-- Whitespace for Python's default `str.strip` and for the ASCII portion of
the regex class `\s` (space, tab, newline, carriage return, vertical tab,
form feed). -/
def isPySpace (c : Char) : Bool :=
  c == ' ' || c == '\t' || c == '\n' || c == '\r' || c == Char.ofNat 11 || c == Char.ofNat 12

/-- Python `str.strip()` on a character list. -/
def pyStrip (l : List Char) : List Char :=
  ((l.dropWhile isPySpace).reverse.dropWhile isPySpace).reverse

/-- The characters removed by `_sanitize_name` (`dangerous_chars`). -/
def dangerousChars : List Char :=
  ['<', '>', '&', '"', '\'', '/', '\\', '{', '}', '[', ']']

/-- Helper of `collapseWs`: the flag records whether the previous character
was whitespace (in which case further whitespace is dropped). -/
def collapseWsAux : Bool → List Char → List Char
  | _, [] => []
  | inRun, c :: rest =>
    if isPySpace c then
      if inRun then collapseWsAux true rest else ' ' :: collapseWsAux true rest
    else c :: collapseWsAux false rest

/-- The regex substitution `re.sub(r"\s+", " ", name)`: every maximal run of
whitespace becomes a single space.  Only the ASCII whitespace class is
modelled; the roster claims concern ASCII rosters. -/
def collapseWs (l : List Char) : List Char := collapseWsAux false l

/-- The `_sanitize_name` function: empty/null input maps to `""`; otherwise
strip, remove dangerous characters (successive single-character `replace`
calls amount to one filter), collapse whitespace runs, and truncate to 100
characters re-stripping afterwards. -/
def sanitizeName (s : String) : String :=
  if s = "" then ""
  else
    let l := pyStrip s.data
    let l := l.filter (fun c => decide (c ∉ dangerousChars))
    let l := collapseWs l
    let l := if 100 < l.length then pyStrip (l.take 100) else l
    ⟨l⟩

/-- One spreadsheet row as consumed by `dataframe_to_participant_dict`:
columns `Name`, `Religion`, `Gender`, `Partner`, optional `Facilitator`.
Missing/NaN cells are modelled by `""` / `none`. -/
structure RosterRow where
  name : String
  religion : String
  gender : String
  partner : Option String := none
  facilitator : Option String := none
deriving DecidableEq, Repr

/-- Row-to-participant transformation of `dataframe_to_participant_dict`
before validation: sanitized name, sanitized partner (`None` stays `None`, a
falsy raw value stays `None`), stripped religion/gender, `id = index + 1`,
`couple_id = None`, facilitator truthiness check. -/
def rowToParticipant (hasFacilitatorCol : Bool) (idx : Nat) (r : RosterRow) : Participant :=
  { id := idx + 1,
    name := sanitizeName r.name,
    religion := ⟨pyStrip r.religion.data⟩,
    gender := ⟨pyStrip r.gender.data⟩,
    partner := r.partner.bind (fun p => if p = "" then none else some (sanitizeName p)),
    coupleId := none,
    isFacilitator :=
      hasFacilitatorCol &&
        ((r.facilitator.getD "").toLower = "yes" || (r.facilitator.getD "").toLower = "y" ||
         (r.facilitator.getD "").toLower = "true" || (r.facilitator.getD "").toLower = "1") }

/-- The `_validate_partner_relationships` checks for one participant: raise on
self-partnership, on a partner absent from the roster, and on an asymmetric
partnership; a falsy partner is skipped.  Error strings stand in for the
interpolated Python messages. -/
def validateOneParticipant (ps : List Participant) (p : Participant) : Except String Unit :=
  match p.partner with
  | none => .ok ()
  | some pn =>
    if pn = "" then .ok ()
    else if pn = p.name then .error "self-partnership"
    else if ¬ (pn ∈ ps.map (·.name)) then .error "partner not in roster"
    else
      match ps.find? (fun q => decide (q.name = pn)) with
      | some q => if q.partner = some p.name then .ok () else .error "asymmetric partnership"
      | none => .ok ()

/-- The `_validate_partner_relationships` loop: first error wins. -/
def validatePartners (ps : List Participant) : List Participant → Except String Unit
  | [] => .ok ()
  | p :: rest => do
    validateOneParticipant ps p
    validatePartners ps rest

/-- Python `sorted` of two names, the couple key of `_assign_couple_ids`. -/
def sortPairStr (a b : String) : String × String :=
  if pyStrLt b a then (b, a) else (a, b)

/-- Lookup in the couple map. -/
def findCoupleId (m : List ((String × String) × Nat)) (k : String × String) : Option Nat :=
  (m.find? (fun e => decide (e.1 = k))).map (·.2)

/-- The `_assign_couple_ids` loop.  The `defaultdict(lambda: next_couple_id[0])`
mints the current counter for an unseen couple key and then increments it;
seen keys reuse their stored id (stored ids are always below the counter, so
the conditional increment fires exactly on a mint). -/
def assignCoupleIds : List Participant → List ((String × String) × Nat) → Nat → List Participant
  | [], _, _ => []
  | p :: rest, cmap, next =>
    match p.partner with
    | none => { p with coupleId := none } :: assignCoupleIds rest cmap next
    | some pn =>
      if pn = "" then { p with coupleId := none } :: assignCoupleIds rest cmap next
      else
        let key := sortPairStr p.name pn
        match findCoupleId cmap key with
        | some cid => { p with coupleId := some cid } :: assignCoupleIds rest cmap next
        | none => { p with coupleId := some next } :: assignCoupleIds rest ((key, next) :: cmap) (next + 1)

/-- The `for index, row in enumerate(participants)` loop building the
transformed participant list. -/
def rowsToParticipants (hasFacilitatorCol : Bool) : Nat → List RosterRow → List Participant
  | _, [] => []
  | idx, r :: rest =>
    rowToParticipant hasFacilitatorCol idx r :: rowsToParticipants hasFacilitatorCol (idx + 1) rest

/-- The `dataframe_to_participant_dict` function: sanitize and transform all
rows, validate partner relationships (first error propagates), then assign
couple ids starting at 1. -/
def dataframeToParticipantDict (rows : List RosterRow) (hasFacilitatorCol : Bool) :
    Except String (List Participant) :=
  let ps := rowsToParticipants hasFacilitatorCol 0 rows
  match validatePartners ps ps with
  | .error e => .error e
  | .ok () => .ok (assignCoupleIds ps [] 1)

/-- Decidability of the constraint predicates, so that concrete instances can
be checked by evaluation. -/
instance (mi : ModelInput) (x : Assignment) : Decidable (exactlyOneTable mi x) := by
  unfold exactlyOneTable; exact inferInstance

instance (mi : ModelInput) (x : Assignment) : Decidable (tableSizeBalance mi x) := by
  unfold tableSizeBalance; exact inferInstance

instance (mi : ModelInput) (f : Participant → String) (x : Assignment) :
    Decidable (attributeSpread mi f x) := by
  unfold attributeSpread; exact inferInstance

instance (mi : ModelInput) (x : Assignment) : Decidable (coupleSeparation mi x) := by
  unfold coupleSeparation; exact inferInstance

instance (mi : ModelInput) (x : Assignment) : Decidable (lockedApplied mi x) := by
  unfold lockedApplied; exact inferInstance

instance (mi : ModelInput) (x : Assignment) : Decidable (hardDifferentApplied mi x) := by
  unfold hardDifferentApplied; exact inferInstance

instance (mi : ModelInput) (x : Assignment) : Decidable (symmetryApplied mi x) := by
  unfold symmetryApplied; exact inferInstance

instance (mi : ModelInput) (x : Assignment) : Decidable (baseSat mi x) := by
  unfold baseSat; exact inferInstance

instance (mi : ModelInput) (x : Assignment) : Decidable (modelSat mi x) := by
  unfold modelSat; exact inferInstance

/-! Concrete fixtures used by counterexamples and witnesses. -/

/-- View of the participant with id 1 in the two-session fixture. -/
def johnV : ParticipantView := { name := "John Doe", religion := "Christian", gender := "Male" }

/-- View of the participant with id 2 in the two-session fixture. -/
def janeV : ParticipantView := { name := "Jane Doe", religion := "Christian", gender := "Female" }

/-- Participant dict with id 1. -/
def johnP : Participant := { id := 1, name := "John Doe", religion := "Christian", gender := "Male" }

/-- Participant dict with id 2. -/
def janeP : Participant := { id := 2, name := "Jane Doe", religion := "Christian", gender := "Female" }

/-- Existing assignments with two sessions: ids 1 and 2 share table 1 in
session 1 and sit apart in session 2. -/
def twoSessionAssignments : List SessionData :=
  [ { session := 1, tables := [(1, [johnV, janeV])] },
    { session := 2, tables := [(1, [johnV]), (2, [janeV])] } ]

/-- Two indistinguishable participants used by the symmetry counterexamples. -/
def cxA : Participant := { id := 1, name := "A", religion := "R", gender := "G" }

/-- Second participant of the symmetry counterexamples. -/
def cxB : Participant := { id := 2, name := "B", religion := "R", gender := "G" }

/-- Regeneration instance: participant 1 currently at table 0, participant 2
at table 1, `require_different_assignments=True`. -/
def miHardCx : ModelInput :=
  { participants := [cxA, cxB], T := 2, S := 1,
    currentTable := [(1, 0), (2, 1)], requireDifferent := true }

/-- Locked instance: participant 1 locked to table 1 of session 0. -/
def miLockCx : ModelInput :=
  { participants := [cxA, cxB], T := 2, S := 1, locked := [((1, 0, 1), true)] }

/-- The swap solution: participant 1 to table 1, participant 2 to table 0. -/
def xSwapCx : Assignment := fun pid _ t => (pid = 1 && t = 1) || (pid = 2 && t = 0)

/-- Scenario-1 roster: two couples, two religions, balanced genders. -/
def wJohn : Participant :=
  { id := 1, name := "John", religion := "Christian", gender := "Male", coupleId := some 1 }

/-- Second fixture participant. -/
def wJane : Participant :=
  { id := 2, name := "Jane", religion := "Christian", gender := "Female", coupleId := some 1 }

/-- Third fixture participant. -/
def wBob : Participant :=
  { id := 3, name := "Bob", religion := "Jewish", gender := "Female", coupleId := some 2 }

/-- Fourth fixture participant. -/
def wAlice : Participant :=
  { id := 4, name := "Alice", religion := "Jewish", gender := "Male", coupleId := some 2 }

/-- Model input for the scenario-1 fixture: 4 participants, 2 tables, 1
session, no locks and no current-table map. -/
def miScenario1 : ModelInput :=
  { participants := [wJohn, wJane, wBob, wAlice], T := 2, S := 1 }

/-- A solution of the scenario-1 model: ids 1,3 at table 0 and ids 2,4 at
table 1. -/
def xScenario1 : Assignment := fun pid _ t =>
  (pid = 1 && t = 0) || (pid = 3 && t = 0) || (pid = 2 && t = 1) || (pid = 4 && t = 1)

/-- A roster row whose name consists only of dangerous characters, so that it
sanitizes to the empty string. -/
def emptyNameRow : RosterRow := { name := "<>", religion := "Christian", gender := "Male" }

/-! Helper lemmas. -/

/-- Every pairing produced by a table scan is a pair of string values. -/
theorem tableNamePairs_shape {e : PyVal × PyVal} :
    ∀ {l : List String}, e ∈ tableNamePairs l → ∃ a b, e = namePairKey a b := by
  intro l
  induction l with
  | nil => intro h; simp [tableNamePairs] at h
  | cons n rest ih =>
    intro h
    simp only [tableNamePairs, List.mem_append, List.mem_map] at h
    rcases h with ⟨n2, _, rfl⟩ | h
    · exact ⟨n, n2, rfl⟩
    · exact ih h

/-- Every pairing extracted from existing sessions is a pair of string
values. -/
theorem extractPairings_shape {e : PyVal × PyVal} {assignments : List SessionData}
    {k : Nat} (h : e ∈ extractPairingsFromSessions assignments k) :
    ∃ a b, e = namePairKey a b := by
  unfold extractPairingsFromSessions at h
  rcases List.mem_flatMap.mp h with ⟨a, _, ha⟩
  rcases List.mem_flatMap.mp ha with ⟨tbl, _, htbl⟩
  exact tableNamePairs_shape htbl

/-- An id pair (ints) is never equal to a name pair (strings). -/
theorem idPairKey_ne_namePairKey (i j : Nat) (a b : String) :
    idPairKey i j ≠ namePairKey a b := by
  unfold idPairKey namePairKey
  split <;> split <;> intro h <;> simp_all

/-- Claim C1 (status: code_bug).  `_extract_pairings_from_sessions` returns
pairs of participant NAMES, while the objective construction in
`_add_objective_functions_to_model` tests membership of a pair of participant
IDS in that set.  The test is therefore never true, and no historical-repeat
term `meets[i,j,s]` is ever added to the regeneration objective — contrary to
the claim.  The first conjunct is the general fact; the rest evaluates the
failing input: ids 1 and 2 are co-seated in session 1, session 2 is
regenerated, the extracted (nonempty) pairing set does contain their name
pair, yet the penalty-term guard for the pair is false. -/
theorem regen_historical_penalty_never_added :
    (∀ (assignments : List SessionData) (k : Nat) (p1 p2 : Participant),
      historicalTermAdded (extractPairingsFromSessions assignments k) p1 p2 = false) ∧
    namePairKey "Jane Doe" "John Doe" ∈ extractPairingsFromSessions twoSessionAssignments 2 ∧
    historicalTermAdded (extractPairingsFromSessions twoSessionAssignments 2) johnP janeP
      = false := by
  refine ⟨?_, by decide, by decide⟩
  intro assignments k p1 p2
  unfold historicalTermAdded
  rw [decide_eq_false_iff_not]
  intro hmem
  rcases extractPairings_shape hmem with ⟨a, b, hab⟩
  exact idPairKey_ne_namePairKey p1.id p2.id a b hab

/-- Claim C3 (status: confirmed).  Control flow of `regenerate_single_session`:
a successful hard-different solve is reported with `assignments_unchanged =
false` after exactly one solver call; a failed hard solve is retried exactly
once with `require_different = false`, a successful retry is reported with
`assignments_unchanged = true`, and a failed retry surfaces the retry's error
with no further attempt.  The first component of the result records the
`require_different` flags of the solver calls actually made, in order. -/
theorem regen_control_flow (existing : List SessionData) (k : Nat)
    (absent : List ParticipantView) (solve : Bool → GBResult) :
    (∀ r, solve true = .ok r →
      regenerateSingleSession existing k absent solve =
        ([true], .ok { assignments := mergeRegenerated existing k r absent,
                       unchanged := false })) ∧
    (∀ e r, solve true = .err e → solve false = .ok r →
      regenerateSingleSession existing k absent solve =
        ([true, false], .ok { assignments := mergeRegenerated existing k r absent,
                              unchanged := true })) ∧
    (∀ e e2, solve true = .err e → solve false = .err e2 →
      regenerateSingleSession existing k absent solve = ([true, false], .error e2)) := by
  refine ⟨?_, ?_, ?_⟩
  · intro r h
    unfold regenerateSingleSession
    rw [h]
  · intro e r h1 h2
    unfold regenerateSingleSession
    rw [h1, h2]
  · intro e e2 h1 h2
    unfold regenerateSingleSession
    rw [h1, h2]

/-- Witness for C3: both attempts fail on a concrete oracle; the retry's
error is surfaced after exactly the two calls `[hard, soft]`. -/
theorem regen_control_flow_witness :
    regenerateSingleSession twoSessionAssignments 2 [] (fun _ => .err "infeasible")
      = ([true, false], .error "infeasible") :=
  (regen_control_flow twoSessionAssignments 2 [] (fun _ => .err "infeasible")).2.2
    "infeasible" "infeasible" rfl rfl

/-- Couple-id assignment never changes names. -/
theorem assignCoupleIds_names :
    ∀ (l : List Participant) (m : List ((String × String) × Nat)) (n : Nat),
      (assignCoupleIds l m n).map (·.name) = l.map (·.name) := by
  intro l
  induction l with
  | nil => intro m n; rfl
  | cons p rest ih =>
    intro m n
    unfold assignCoupleIds
    cases p.partner with
    | none => simp [ih]
    | some pn =>
      by_cases hpn : pn = ""
      · simp [hpn, ih]
      · simp only [hpn, if_false]
        cases findCoupleId m (sortPairStr p.name pn) with
        | none => simp [ih]
        | some cid => simp [ih]

/-- The transformed rows carry exactly the sanitized names, in order. -/
theorem rowsToParticipants_names (hasFac : Bool) :
    ∀ (rows : List RosterRow) (i : Nat),
      (rowsToParticipants hasFac i rows).map (·.name)
        = rows.map (fun r => sanitizeName r.name) := by
  intro rows
  induction rows with
  | nil => intro i; rfl
  | cons r rest ih =>
    intro i
    simp [rowsToParticipants, rowToParticipant, ih]

/-- Claim C7, counterexample: a row whose name sanitizes to the empty string
is ACCEPTED by `dataframe_to_participant_dict` — the function performs no
empty-name check — and yields a participant whose name is `""`, instead of
failing with an invalid-roster error as the claim states. -/
theorem emptyName_row_accepted :
    sanitizeName "<>" = "" ∧
    dataframeToParticipantDict [emptyNameRow] false =
      .ok [{ id := 1, name := "", religion := "Christian", gender := "Male" }] := by
  constructor
  · decide
  · rfl

/-- Claim C7 as amended (status: corrected).  Roster normalization does not
reject names that are empty after sanitization: whenever the partner checks
pass, `dataframe_to_participant_dict` succeeds and its output carries the
sanitized names verbatim — including empty ones.  Errors arise only from
`_validate_partner_relationships` (self-partnership, missing partner,
asymmetric partnership). -/
theorem normalizer_keeps_empty_names (rows : List RosterRow) (hasFac : Bool)
    (h : validatePartners (rowsToParticipants hasFac 0 rows)
           (rowsToParticipants hasFac 0 rows) = .ok ()) :
    dataframeToParticipantDict rows hasFac =
      .ok (assignCoupleIds (rowsToParticipants hasFac 0 rows) [] 1) ∧
    (assignCoupleIds (rowsToParticipants hasFac 0 rows) [] 1).map (·.name)
      = rows.map (fun r => sanitizeName r.name) := by
  constructor
  · unfold dataframeToParticipantDict
    simp only [h]
  · rw [assignCoupleIds_names, rowsToParticipants_names]

/-- Witness for the amended C7: the empty-name row passes validation and its
empty sanitized name appears in the output. -/
theorem normalizer_keeps_empty_names_witness :
    dataframeToParticipantDict [emptyNameRow] false =
      .ok (assignCoupleIds (rowsToParticipants false 0 [emptyNameRow]) [] 1) ∧
    (assignCoupleIds (rowsToParticipants false 0 [emptyNameRow]) [] 1).map (·.name)
      = [emptyNameRow].map (fun r => sanitizeName r.name) :=
  normalizer_keeps_empty_names [emptyNameRow] false rfl

/-- Membership in a decoded table is exactly truth of the decision variable. -/
theorem mem_decodeTable {ps : List Participant} {x : Assignment} {s t : Nat}
    {p : Participant} (hp : p ∈ ps) :
    p ∈ decodeTable ps x s t ↔ x p.id s t = true := by
  unfold decodeTable
  rw [List.mem_filter]
  exact ⟨fun h => h.2, fun h => ⟨hp, h⟩⟩

/-- A decoded table's head-count is the model's table count. -/
theorem decodeTable_length (ps : List Participant) (x : Assignment) (s t : Nat) :
    (decodeTable ps x s t).length = tableCount ps x s t := by
  unfold decodeTable tableCount
  exact (List.countP_eq_length_filter _ _).symm

/-- Two distinct members both satisfying a predicate force a count of at
least two. -/
theorem two_mem_le_countP {α : Type} (p : α → Bool) {l : List α} {a b : α}
    (ha : a ∈ l) (hb : b ∈ l) (hab : a ≠ b) (hpa : p a = true) (hpb : p b = true) :
    2 ≤ l.countP p := by
  rw [List.countP_eq_length_filter]
  have ha' : a ∈ l.filter p := List.mem_filter.mpr ⟨ha, hpa⟩
  have hb' : b ∈ l.filter p := List.mem_filter.mpr ⟨hb, hpb⟩
  rcases hfl : l.filter p with _ | ⟨z, _ | ⟨w, rest⟩⟩
  · rw [hfl] at ha'
    simp at ha'
  · rw [hfl] at ha' hb'
    simp at ha' hb'
    exact absurd (ha'.trans hb'.symm) hab
  · simp [hfl]

/-- Claim C4 (status: confirmed).  The model contains the constraint
`Σₜ x[p,s,t] = 1` for every participant and session, and consequently, in any
decoded success result, every participant appears in exactly one table of
each session — namely the one whose decision variable is true. -/
theorem participant_in_exactly_one_table (mi : ModelInput) (x : Assignment)
    (h : modelSat mi x) :
    ∀ p ∈ mi.participants, ∀ s < mi.S,
      seatCount x p.id s mi.T = 1 ∧
      (List.range mi.T).countP (fun t => decide (p ∈ decodeTable mi.participants x s t)) = 1 ∧
      ∀ t < mi.T, (p ∈ decodeTable mi.participants x s t ↔ x p.id s t = true) := by
  intro p hp s hs
  have hone : seatCount x p.id s mi.T = 1 := h.1.1 p hp s hs
  refine ⟨hone, ?_, fun t _ => mem_decodeTable hp⟩
  have hcong : (List.range mi.T).countP (fun t => decide (p ∈ decodeTable mi.participants x s t))
      = (List.range mi.T).countP (fun t => x p.id s t) := by
    refine List.countP_congr (fun t _ => ?_)
    simp [mem_decodeTable hp]
  rw [hcong]
  exact hone

/-- Witness for C4 on the scenario-1 fixture. -/
theorem participant_in_exactly_one_table_witness :
    modelSat miScenario1 xScenario1 ∧
    ∀ p ∈ miScenario1.participants, ∀ s < miScenario1.S,
      seatCount xScenario1 p.id s miScenario1.T = 1 ∧
      (List.range miScenario1.T).countP
        (fun t => decide (p ∈ decodeTable miScenario1.participants xScenario1 s t)) = 1 ∧
      ∀ t < miScenario1.T,
        (p ∈ decodeTable miScenario1.participants xScenario1 s t ↔ xScenario1 p.id s t = true) :=
  ⟨by decide, participant_in_exactly_one_table miScenario1 xScenario1 (by decide)⟩

/-- The attribute count of a decoded table equals the model's per-attribute
table count. -/
theorem decodeTable_attrCount (ps : List Participant) (f : Participant → String)
    (v : String) (x : Assignment) (s t : Nat) :
    (decodeTable ps x s t).countP (fun p => decide (f p = v)) = attrCount ps f v x s t := by
  unfold decodeTable attrCount
  rw [List.countP_filter, List.countP_filter]
  exact List.countP_congr (fun p _ => by
    constructor <;> intro h <;> simp_all [Bool.and_comm])

/-- Claim C5 (status: confirmed).  In any decoded success result, per session
the table head-counts differ by at most 1, and for EVERY string value the
per-table religion counts and gender counts differ by at most 1 (for values
occurring in the roster this follows from the max/min constraints; for other
values all counts are zero). -/
theorem tables_balanced_and_attributes_spread (mi : ModelInput) (x : Assignment)
    (h : modelSat mi x) :
    ∀ s < mi.S, ∀ t1 < mi.T, ∀ t2 < mi.T,
      (decodeTable mi.participants x s t1).length
        ≤ (decodeTable mi.participants x s t2).length + 1 ∧
      ∀ v : String,
        (decodeTable mi.participants x s t1).countP (fun p => decide (p.religion = v))
          ≤ (decodeTable mi.participants x s t2).countP (fun p => decide (p.religion = v)) + 1 ∧
        (decodeTable mi.participants x s t1).countP (fun p => decide (p.gender = v))
          ≤ (decodeTable mi.participants x s t2).countP (fun p => decide (p.gender = v)) + 1 := by
  intro s hs t1 ht1 t2 ht2
  constructor
  · rw [decodeTable_length, decodeTable_length]
    obtain ⟨M, _, m, _, hbound, hMm⟩ := h.1.2.1 s hs
    have h1 := (hbound t1 ht1).1
    have h2 := (hbound t2 ht2).2
    omega
  · intro v
    have spread : ∀ (f : Participant → String), attributeSpread mi f x →
        attrCount mi.participants f v x s t1 ≤ attrCount mi.participants f v x s t2 + 1 := by
      intro f hspread
      by_cases hv : v ∈ mi.participants.map f
      · obtain ⟨M, _, m, _, hbound, hMm⟩ := hspread s hs v hv
        have h1 := (hbound t1 ht1).1
        have h2 := (hbound t2 ht2).2
        omega
      · have hzero : ∀ t : Nat, attrCount mi.participants f v x s t = 0 := by
          intro t
          unfold attrCount
          rw [List.countP_filter, List.countP_eq_zero]
          intro p hp
          simp only [Bool.and_eq_true, decide_eq_true_eq]
          rintro ⟨-, hfv⟩
          exact hv (List.mem_map.mpr ⟨p, hp, hfv⟩)
        rw [hzero t1, hzero t2]
        omega
    rw [decodeTable_attrCount, decodeTable_attrCount, decodeTable_attrCount,
      decodeTable_attrCount]
    exact ⟨spread (·.religion) h.1.2.2.1, spread (·.gender) h.1.2.2.2.1⟩

/-- Witness for C5 on the scenario-1 fixture. -/
theorem tables_balanced_and_attributes_spread_witness :
    modelSat miScenario1 xScenario1 ∧
    ∀ s < miScenario1.S, ∀ t1 < miScenario1.T, ∀ t2 < miScenario1.T,
      (decodeTable miScenario1.participants xScenario1 s t1).length
        ≤ (decodeTable miScenario1.participants xScenario1 s t2).length + 1 ∧
      ∀ v : String,
        (decodeTable miScenario1.participants xScenario1 s t1).countP
            (fun p => decide (p.religion = v))
          ≤ (decodeTable miScenario1.participants xScenario1 s t2).countP
              (fun p => decide (p.religion = v)) + 1 ∧
        (decodeTable miScenario1.participants xScenario1 s t1).countP
            (fun p => decide (p.gender = v))
          ≤ (decodeTable miScenario1.participants xScenario1 s t2).countP
              (fun p => decide (p.gender = v)) + 1 :=
  ⟨by decide, tables_balanced_and_attributes_spread miScenario1 xScenario1 (by decide)⟩

/-- The couple-group count of a decoded table equals the model's group count
at that table. -/
theorem decodeTable_coupleCount (ps : List Participant) (c : Nat) (x : Assignment)
    (s t : Nat) :
    (decodeTable ps x s t).countP (fun q => decide (q.coupleId = some c))
      = (coupleGroup ps c).countP (fun q => x q.id s t) := by
  unfold decodeTable coupleGroup
  rw [List.countP_filter, List.countP_filter]
  exact List.countP_congr (fun p _ => by
    constructor <;> intro h <;> simp_all [Bool.and_comm])

/-- Claim C6 (status: confirmed).  In any decoded success result, no table
seats two members of one couple group (participants sharing a truthy
`couple_id`); in particular the two partners of a couple always sit at
different tables. -/
theorem couple_members_never_share_table (mi : ModelInput) (x : Assignment)
    (h : modelSat mi x) :
    ∀ s < mi.S, ∀ t < mi.T, ∀ c : Nat, c ≠ 0 →
      (decodeTable mi.participants x s t).countP (fun q => decide (q.coupleId = some c)) ≤ 1 ∧
      ∀ p q, p ∈ mi.participants → q ∈ mi.participants → p ≠ q →
        p.coupleId = some c → q.coupleId = some c →
        ¬(x p.id s t = true ∧ x q.id s t = true) := by
  intro s hs t ht c hc
  have hcount : (decodeTable mi.participants x s t).countP
      (fun q => decide (q.coupleId = some c)) ≤ 1 := by
    rw [decodeTable_coupleCount]
    by_cases hmem : ∃ p ∈ mi.participants, p.coupleId = some c
    · obtain ⟨p, hp, hpc⟩ := hmem
      exact h.1.2.2.2.2.1 p hp c (by simp [hpc]) hc s hs t ht
    · push_neg at hmem
      have : (coupleGroup mi.participants c).countP (fun q => x q.id s t) = 0 := by
        unfold coupleGroup
        rw [List.countP_filter, List.countP_eq_zero]
        intro q hq
        simp only [Bool.and_eq_true, decide_eq_true_eq]
        rintro ⟨-, hqc⟩
        exact hmem q hq hqc
      omega
    
  refine ⟨hcount, ?_⟩
  rintro p q hp hq hpq hpc hqc ⟨hxp, hxq⟩
  have hge : 2 ≤ (decodeTable mi.participants x s t).countP
      (fun q => decide (q.coupleId = some c)) := by
    refine two_mem_le_countP _ ((mem_decodeTable hp).mpr hxp) ((mem_decodeTable hq).mpr hxq)
      hpq (by simp [hpc]) (by simp [hqc])
  omega

/-- Witness for C6 on the scenario-1 fixture. -/
theorem couple_members_never_share_table_witness :
    modelSat miScenario1 xScenario1 ∧
    ∀ s < miScenario1.S, ∀ t < miScenario1.T, ∀ c : Nat, c ≠ 0 →
      (decodeTable miScenario1.participants xScenario1 s t).countP
        (fun q => decide (q.coupleId = some c)) ≤ 1 ∧
      ∀ p q, p ∈ miScenario1.participants → q ∈ miScenario1.participants → p ≠ q →
        p.coupleId = some c → q.coupleId = some c →
        ¬(xScenario1 p.id s t = true ∧ xScenario1 q.id s t = true) :=
  ⟨by decide, couple_members_never_share_table miScenario1 xScenario1 (by decide)⟩

/-- Count over a range as a sum of indicators. -/
theorem countP_range_eq_sum (f : Nat → Bool) : ∀ T : Nat,
    (List.range T).countP f = ∑ t ∈ Finset.range T, (if f t then 1 else 0) := by
  intro T
  induction T with
  | zero => rfl
  | succ n ih =>
    rw [List.range_succ, List.countP_append, Finset.sum_range_succ, ih]
    simp [List.countP_cons]

/-- Swapping two tables below the bound does not change a count over the
range of tables. -/
theorem countP_range_swap (f : Nat → Bool) {T a b : Nat} (ha : a < T) (hb : b < T) :
    (List.range T).countP (fun t => f (Equiv.swap a b t)) = (List.range T).countP f := by
  rw [countP_range_eq_sum, countP_range_eq_sum]
  refine Finset.sum_equiv (Equiv.swap a b) ?_ ?_
  · intro i
    simp only [Finset.mem_range]
    rcases eq_or_ne i a with rfl | hia
    · rw [Equiv.swap_apply_left]; omega
    · rcases eq_or_ne i b with rfl | hib
      · rw [Equiv.swap_apply_right]; omega
      · rw [Equiv.swap_apply_of_ne_of_ne hia hib]
  · intro i _
    rfl

/-- Claim C2, counterexample: the symmetry-breaking constraint is NOT
feasibility-preserving on every instance the model builder accepts.  Left:
single-session regeneration with `require_different_assignments=True` where
participant 1's current table is table 0 — the swap solution satisfies every
other constraint, yet adding `x[1,0,0] = 1` contradicts the hard-different
constraint `x[1,0,0] = 0`, so the full model is infeasible.  Right: a locked
instance pinning participant 1 to table 1 of session 0 — again satisfiable
without symmetry breaking, infeasible with it (the lock plus the
exactly-one-table constraint forbid `x[1,0,0] = 1`). -/
theorem symmetry_removes_solutions :
    (baseSat miHardCx xSwapCx ∧ ¬ ∃ x, modelSat miHardCx x) ∧
    (baseSat miLockCx xSwapCx ∧ ¬ ∃ x, modelSat miLockCx x) := by
  refine ⟨⟨by decide, ?_⟩, ⟨by decide, ?_⟩⟩
  · rintro ⟨x, hbase, hsym⟩
    have hx00 : x 1 0 0 = true := by
      have := hsym cxA (by decide) (by decide) (by decide)
      simpa using this
    have hx00' : x 1 0 0 = false := by
      have := hbase.2.2.2.2.2.2 rfl cxA (by simp [miHardCx]) 0 (by decide) (by decide) (by decide)
      simpa using this
    rw [hx00] at hx00'
    cases hx00'
  · rintro ⟨x, hbase, hsym⟩
    have hx00 : x 1 0 0 = true := by
      have := hsym cxA (by decide) (by decide) (by decide)
      simpa using this
    have hx01 : x 1 0 1 = true := by
      have := hbase.2.2.2.2.2.1 ((1, 0, 1), true) (by simp [miLockCx])
        (by simp [miLockCx, cxA, cxB]) (by decide) (by decide)
      simpa using this
    have hone := hbase.1 cxA (by simp [miLockCx]) 0 (by decide)
    have hr2 : List.range 2 = [0, 1] := rfl
    unfold seatCount at hone
    have hTeq : miLockCx.T = 2 := rfl
    rw [hTeq, hr2] at hone
    simp [List.countP_cons, cxA, hx00, hx01] at hone

/-- Claim C2 as amended (status: corrected).  For instances with no locked
assignments and `require_different_assignments = False` — the current-table
map may be arbitrary, since in soft mode it only contributes objective terms,
never constraints — the symmetry-breaking fix is feasibility-preserving: any
solution can be relabelled (swap table 0 with the first participant's table
in session 0) into one that additionally satisfies
`x[participants[0].id, 0, 0] = 1`.  With locked assignments or hard-mode
current-table constraints the fix can remove all solutions
(`symmetry_removes_solutions`). -/
theorem symmetry_preserves_feasibility (mi : ModelInput)
    (hL : mi.locked = []) (hR : mi.requireDifferent = false)
    (hfeas : ∃ x, baseSat mi x) : ∃ x, modelSat mi x := by
  obtain ⟨x, hx⟩ := hfeas
  by_cases hdeg : 0 < mi.S ∧ 0 < mi.T ∧ mi.participants ≠ []
  case neg =>
    refine ⟨x, hx, ?_⟩
    intro q hq hS hT
    push_neg at hdeg
    rw [hdeg hS hT] at hq
    simp at hq
  case pos =>
    obtain ⟨hS, hT, hne⟩ := hdeg
    obtain ⟨p0, rest, hps⟩ : ∃ p0 rest, mi.participants = p0 :: rest := by
      cases hps : mi.participants with
      | nil => exact absurd hps hne
      | cons a l => exact ⟨a, l, rfl⟩
    have hp0mem : p0 ∈ mi.participants := by rw [hps]; exact List.mem_cons_self _ _
    have hone0 := hx.1 p0 hp0mem 0 hS
    have hpos : 0 < (List.range mi.T).countP (fun t => x p0.id 0 t) := by
      unfold seatCount at hone0
      omega
    obtain ⟨tstar, htmem, hxt⟩ := List.countP_pos_iff.mp hpos
    have htT : tstar < mi.T := List.mem_range.mp htmem
    have hσlt : ∀ t, t < mi.T → Equiv.swap (0 : ℕ) tstar t < mi.T := by
      intro t ht
      rcases eq_or_ne t 0 with rfl | ht0
      · rw [Equiv.swap_apply_left]; exact htT
      · rcases eq_or_ne t tstar with rfl | htt
        · rw [Equiv.swap_apply_right]; exact hT
        · rw [Equiv.swap_apply_of_ne_of_ne ht0 htt]; exact ht
    set x' : Assignment :=
      fun pid s t => if s = 0 then x pid s (Equiv.swap (0 : ℕ) tstar t) else x pid s t
      with hxpdef
    have hsame : ∀ pid s t, s ≠ 0 → x' pid s t = x pid s t := by
      intro pid s t hs0
      simp [hxpdef, hs0]
    have hswap : ∀ pid t, x' pid 0 t = x pid 0 (Equiv.swap (0 : ℕ) tstar t) := by
      intro pid t
      simp [hxpdef]
    refine ⟨x', ⟨?_, ?_, ?_, ?_, ?_, ?_, ?_⟩, ?_⟩
    · -- exactly one table per participant and session
      intro p hp s hs
      by_cases hs0 : s = 0
      · subst hs0
        have key : seatCount x' p.id 0 mi.T
            = (List.range mi.T).countP (fun t => x p.id 0 (Equiv.swap (0 : ℕ) tstar t)) :=
          List.countP_congr (fun t _ => by rw [hswap])
        rw [key, countP_range_swap (fun u => x p.id 0 u) hT htT]
        exact hx.1 p hp 0 hs
      · have key : seatCount x' p.id s mi.T = seatCount x p.id s mi.T :=
          List.countP_congr (fun t _ => by rw [hsame _ _ _ hs0])
        rw [key]
        exact hx.1 p hp s hs
    · -- table-size balance
      intro s hs
      obtain ⟨M, hM, m, hm, hbound, hMm⟩ := hx.2.1 s hs
      refine ⟨M, hM, m, hm, ?_, hMm⟩
      intro t ht
      by_cases hs0 : s = 0
      · subst hs0
        have key : tableCount mi.participants x' 0 t
            = tableCount mi.participants x 0 (Equiv.swap (0 : ℕ) tstar t) :=
          List.countP_congr (fun p _ => by rw [hswap])
        rw [key]
        exact hbound _ (hσlt t ht)
      · have key : tableCount mi.participants x' s t = tableCount mi.participants x s t :=
          List.countP_congr (fun p _ => by rw [hsame _ _ _ hs0])
        rw [key]
        exact hbound t ht
    · -- religion spread
      intro s hs v hv
      obtain ⟨M, hM, m, hm, hbound, hMm⟩ := hx.2.2.1 s hs v hv
      refine ⟨M, hM, m, hm, ?_, hMm⟩
      intro t ht
      by_cases hs0 : s = 0
      · subst hs0
        have key : attrCount mi.participants (·.religion) v x' 0 t
            = attrCount mi.participants (·.religion) v x 0 (Equiv.swap (0 : ℕ) tstar t) :=
          List.countP_congr (fun p _ => by rw [hswap])
        rw [key]
        exact hbound _ (hσlt t ht)
      · have key : attrCount mi.participants (·.religion) v x' s t
            = attrCount mi.participants (·.religion) v x s t :=
          List.countP_congr (fun p _ => by rw [hsame _ _ _ hs0])
        rw [key]
        exact hbound t ht
    · -- gender spread
      intro s hs v hv
      obtain ⟨M, hM, m, hm, hbound, hMm⟩ := hx.2.2.2.1 s hs v hv
      refine ⟨M, hM, m, hm, ?_, hMm⟩
      intro t ht
      by_cases hs0 : s = 0
      · subst hs0
        have key : attrCount mi.participants (·.gender) v x' 0 t
            = attrCount mi.participants (·.gender) v x 0 (Equiv.swap (0 : ℕ) tstar t) :=
          List.countP_congr (fun p _ => by rw [hswap])
        rw [key]
        exact hbound _ (hσlt t ht)
      · have key : attrCount mi.participants (·.gender) v x' s t
            = attrCount mi.participants (·.gender) v x s t :=
          List.countP_congr (fun p _ => by rw [hsame _ _ _ hs0])
        rw [key]
        exact hbound t ht
    · -- couple separation
      intro p hp c hc hc0 s hs t ht
      by_cases hs0 : s = 0
      · subst hs0
        have key : (coupleGroup mi.participants c).countP (fun q => x' q.id 0 t)
            = (coupleGroup mi.participants c).countP
                (fun q => x q.id 0 (Equiv.swap (0 : ℕ) tstar t)) :=
          List.countP_congr (fun q _ => by rw [hswap])
        rw [key]
        exact hx.2.2.2.2.1 p hp c hc hc0 0 hs _ (hσlt t ht)
      · have key : (coupleGroup mi.participants c).countP (fun q => x' q.id s t)
            = (coupleGroup mi.participants c).countP (fun q => x q.id s t) :=
          List.countP_congr (fun q _ => by rw [hsame _ _ _ hs0])
        rw [key]
        exact hx.2.2.2.2.1 p hp c hc hc0 s hs t ht
    · -- locked assignments: none
      intro e he
      rw [hL] at he
      simp at he
    · -- hard-different: soft mode adds no constraint
      intro hreq
      rw [hR] at hreq
      cases hreq
    · -- symmetry breaking holds after the relabelling
      intro q hq hS' hT'
      have hq' : q = p0 := by
        rw [hps] at hq
        simpa using hq
      subst hq'
      rw [hswap, Equiv.swap_apply_left]
      exact hxt

/-- Witness for the amended C2 on the scenario-1 fixture (no locks, soft
mode). -/
theorem symmetry_preserves_feasibility_witness : ∃ x, modelSat miScenario1 x :=
  symmetry_preserves_feasibility miScenario1 rfl rfl ⟨xScenario1, by decide⟩

/-- The per-session track/lock loop never touches `all_assignments`. -/
theorem commitFold_assignments (ps : List Participant) (T bs be : Nat) :
    ∀ (sessions : List SessionData) (st : IncState),
      (sessions.foldl
        (fun s a =>
          { s with hist := trackHistoricalPairings ps a bs be s.hist,
                   locked := lockBatchAssignments ps T a s.locked })
        st).assignments = st.assignments := by
  intro sessions
  induction sessions with
  | nil => intro st; rfl
  | cons a rest ih => intro st; rw [List.foldl_cons, ih]

/-- A successful dict lookup comes from a stored entry. -/
theorem dictFind_mem {d : LockDict} {k : LockKey} {b : Bool}
    (h : dictFind d k = some b) : (k, b) ∈ d := by
  induction d with
  | nil => cases h
  | cons e rest ih =>
    unfold dictFind at h
    by_cases hek : e.1 = k
    · rw [if_pos hek] at h
      have he : e = (k, b) := by
        obtain ⟨e1, e2⟩ := e
        cases h
        simp_all
      rw [← he]
      exact List.mem_cons_self _ _
    · rw [if_neg hek] at h
      exact List.mem_cons_of_mem _ (ih h)

/-- Claim C8 (status: confirmed).  If every batch before some batch succeeds
and that batch's solve returns a failure, `generate_assignments_incremental`
returns that failure verbatim — the same error, regardless of what any later
batch would have produced — and the returned value carries no assignments for
any session. -/
theorem incremental_first_failure_verbatim (solve : BatchSolver)
    (ps : List Participant) (T : Nat) :
    ∀ (pre : List (Nat × Nat × Nat)) (k bs be : Nat) (rest : List (Nat × Nat × Nat))
      (st st' : IncState) (e : String),
      incTrace solve ps T pre st = some st' →
      solve k be st'.locked st'.hist = .failure e →
      incRun solve ps T (pre ++ (k, bs, be) :: rest) st = .failure e ∧
      incResultAssignments (incRun solve ps T (pre ++ (k, bs, be) :: rest) st) = [] := by
  intro pre
  induction pre with
  | nil =>
    intro k bs be rest st st' e htrace hfail
    have hst : st = st' := by simpa [incTrace] using htrace
    rw [← hst] at hfail
    have hrun : incRun solve ps T ([] ++ (k, bs, be) :: rest) st = .failure e := by
      simp only [List.nil_append, incRun, hfail]
    exact ⟨hrun, by rw [hrun]; rfl⟩
  | cons b pre ih =>
    rcases b with ⟨k0, bs0, be0⟩
    intro k bs be rest st st' e htrace hfail
    rcases hsolve : solve k0 be0 st.locked st.hist with sessions | e0
    · rw [incTrace, hsolve] at htrace
      have := ih k bs be rest (commitBatch ps T bs0 be0 sessions st) st' e htrace hfail
      rw [List.cons_append, incRun, hsolve]
      exact this
    · rw [incTrace, hsolve] at htrace
      cases htrace

/-- Claim C9 (status: confirmed).  First conjunct: committing a batch only
appends — the new `all_assignments` is the old one followed by exactly the
solved sessions of the batch's own range, so sessions emitted by earlier
batches are never modified.  Second conjunct: over any run of successful
batches the emitted list only grows at the end.  Third conjunct: the locked
equality constraints force any solution of a later batch's model — hence its
re-decoded earlier sessions — to agree with every committed `(id, session,
table)` value. -/
theorem committed_sessions_stable (solve : BatchSolver) (ps : List Participant) (T : Nat) :
    (∀ (bs be : Nat) (sessions : List SessionData) (st : IncState),
      (commitBatch ps T bs be sessions st).assignments
        = st.assignments ++ sessions.filter (fun a =>
            decide (bs ≤ a.session - 1) && decide (a.session - 1 < be))) ∧
    (∀ (batches : List (Nat × Nat × Nat)) (st st' : IncState),
      incTrace solve ps T batches st = some st' →
      ∃ tail, st'.assignments = st.assignments ++ tail) ∧
    (∀ (mi : ModelInput) (x : Assignment) (pid s t : Nat) (b : Bool),
      lockedApplied mi x → dictFind mi.locked (pid, s, t) = some b →
      pid ∈ mi.participants.map (·.id) → s < mi.S → t < mi.T → x pid s t = b) := by
  refine ⟨?_, ?_, ?_⟩
  · intro bs be sessions st
    unfold commitBatch
    rw [commitFold_assignments]
  · intro batches
    induction batches with
    | nil =>
      intro st st' htrace
      have hst : st' = st := by simpa [incTrace] using htrace.symm
      subst hst
      exact ⟨[], by simp⟩
    | cons b rest ih =>
      rcases b with ⟨k0, bs0, be0⟩
      intro st st' htrace
      rcases hsolve : solve k0 be0 st.locked st.hist with sessions | e0
      · rw [incTrace, hsolve] at htrace
        obtain ⟨tail, htail⟩ := ih (commitBatch ps T bs0 be0 sessions st) st' htrace
        refine ⟨sessions.filter (fun a =>
          decide (bs0 ≤ a.session - 1) && decide (a.session - 1 < be0)) ++ tail, ?_⟩
        rw [htail]
        unfold commitBatch
        rw [commitFold_assignments]
        simp
      · rw [incTrace, hsolve] at htrace
        cases htrace
  · intro mi x pid s t b hlock hfind hmem hs ht
    exact hlock ((pid, s, t), b) (dictFind_mem hfind) hmem hs ht

/-- Witness for C8: a solver failing on the very first batch; the loop
surfaces the failure verbatim with no assignments. -/
theorem incremental_first_failure_verbatim_witness :
    incRun (fun _ _ _ _ => .failure "no solution") [] 1 ([] ++ (0, 0, 2) :: [])
        ⟨[], [], []⟩ = .failure "no solution" ∧
    incResultAssignments (incRun (fun _ _ _ _ => .failure "no solution") [] 1
        ([] ++ (0, 0, 2) :: []) ⟨[], [], []⟩) = [] :=
  incremental_first_failure_verbatim (fun _ _ _ _ => .failure "no solution") [] 1
    [] 0 0 2 [] ⟨[], [], []⟩ ⟨[], [], []⟩ "no solution" rfl rfl

/-- Witness for C9: the append-only commit on a concrete batch, and the
locked-value forcing on the concrete locked instance. -/
theorem committed_sessions_stable_witness :
    (commitBatch [] 1 0 2 [] ⟨[], [], []⟩).assignments
        = ([] : List SessionData) ++ List.filter (fun a =>
            decide (0 ≤ a.session - 1) && decide (a.session - 1 < 2)) [] ∧
    xSwapCx 1 0 1 = true :=
  ⟨(committed_sessions_stable (fun _ _ _ _ => .failure "e") [] 1).1 0 2 [] ⟨[], [], []⟩,
   (committed_sessions_stable (fun _ _ _ _ => .failure "e") [] 1).2.2 miLockCx xSwapCx
     1 0 1 true (by decide) rfl (by decide) (by decide) (by decide)⟩

/-- Filtering out one key leaves lookups of other keys unchanged. -/
theorem dictFind_filter_ne (d : LockDict) (k k' : LockKey) (hk : k' ≠ k) :
    dictFind (d.filter (fun e => decide (e.1 ≠ k))) k' = dictFind d k' := by
  induction d with
  | nil => rfl
  | cons e rest ih =>
    by_cases hek : e.1 = k
    · have : (fun e : LockKey × Bool => decide (e.1 ≠ k)) e = false := by simp [hek]
      rw [List.filter_cons_of_neg (by simp [hek]), dictFind,
        if_neg (by rw [hek]; exact fun h => hk h.symm)]
      exact ih
    · rw [List.filter_cons_of_pos (by simp [hek]), dictFind, dictFind]
      by_cases hek' : e.1 = k'
      · rw [if_pos hek', if_pos hek']
      · rw [if_neg hek', if_neg hek']
        exact ih

/-- Lookup after a dict update: the written key reads the new value, any
other key is unchanged. -/
theorem dictFind_dictSet (d : LockDict) (k : LockKey) (v : Bool) (k' : LockKey) :
    dictFind (dictSet d k v) k' = if k' = k then some v else dictFind d k' := by
  unfold dictSet
  rw [show dictFind ((k, v) :: d.filter (fun e => decide (e.1 ≠ k))) k'
      = if k = k' then some v else dictFind (d.filter (fun e => decide (e.1 ≠ k))) k' from rfl]
  by_cases hkk : k' = k
  · rw [if_pos hkk.symm, if_pos hkk]
  · rw [if_neg (fun h => hkk h.symm), if_neg hkk]
    exact dictFind_filter_ne d k k' hkk

/-- Lookup after the lock-to-false loop of `_lock_batch_assignments`: keys
`(pid, sIdx, t)` with `t ∈ l`, `t ≠ tIdx` read `false`; all others are
unchanged. -/
theorem dictFind_foldl_false (pid sIdx tIdx : Nat) :
    ∀ (l : List Nat) (d : LockDict) (k : LockKey),
      dictFind
        (l.foldl (fun acc t => if t = tIdx then acc else dictSet acc (pid, sIdx, t) false) d) k
      = if ∃ t ∈ l, t ≠ tIdx ∧ k = (pid, sIdx, t) then some false else dictFind d k := by
  intro l
  induction l with
  | nil =>
    intro d k
    simp
  | cons t0 rest ih =>
    intro d k
    rw [List.foldl_cons]
    by_cases ht0 : t0 = tIdx
    · rw [if_pos ht0, ih]
      by_cases hrest : ∃ t ∈ rest, t ≠ tIdx ∧ k = (pid, sIdx, t)
      · rw [if_pos hrest, if_pos]
        obtain ⟨t, htm, ht⟩ := hrest
        exact ⟨t, List.mem_cons_of_mem _ htm, ht⟩
      · rw [if_neg hrest, if_neg]
        rintro ⟨t, htm, hne, hk⟩
        rcases List.mem_cons.mp htm with rfl | htm'
        · exact hne ht0
        · exact hrest ⟨t, htm', hne, hk⟩
    · rw [if_neg ht0, ih, dictFind_dictSet]
      by_cases hrest : ∃ t ∈ rest, t ≠ tIdx ∧ k = (pid, sIdx, t)
      · rw [if_pos hrest, if_pos]
        obtain ⟨t, htm, ht⟩ := hrest
        exact ⟨t, List.mem_cons_of_mem _ htm, ht⟩
      · rw [if_neg hrest]
        by_cases hk0 : k = (pid, sIdx, t0)
        · rw [if_pos hk0, if_pos ⟨t0, List.mem_cons_self _ _, ht0, hk0⟩]
        · rw [if_neg hk0, if_neg]
          rintro ⟨t, htm, hne, hk⟩
          rcases List.mem_cons.mp htm with rfl | htm'
          · exact hk0 hk
          · exact hrest ⟨t, htm', hne, hk⟩

/-- Lookup after one `_lock_batch_assignments` body execution for a resolved
participant id: the seated table reads `true`, every other table below `T`
reads `false`, everything else is unchanged. -/
theorem dictFind_lockParticipant (ps : List Participant) (T sIdx tIdx : Nat)
    (n : String) (d : LockDict) {pid : Nat} (hid : idOfName ps n = some pid)
    (htIdx : tIdx < T) (i s' t' : Nat) :
    dictFind (lockParticipant ps T sIdx tIdx n d) (i, s', t') =
      if i = pid ∧ s' = sIdx ∧ t' = tIdx then some true
      else if i = pid ∧ s' = sIdx ∧ t' < T then some false
      else dictFind d (i, s', t') := by
  unfold lockParticipant
  rw [hid]
  rw [dictFind_foldl_false]
  by_cases h1 : i = pid ∧ s' = sIdx ∧ t' = tIdx
  · obtain ⟨rfl, rfl, rfl⟩ := h1
    have hno : ¬ ∃ t ∈ List.range T, t ≠ t' ∧ ((i, s', t') : LockKey) = (i, s', t) := by
      rintro ⟨t, -, hne, hk⟩
      simp only [Prod.mk.injEq] at hk
      exact hne hk.2.2.symm
    rw [if_neg hno, dictFind_dictSet, if_pos rfl, if_pos ⟨rfl, rfl, rfl⟩]
  · rw [if_neg h1]
    by_cases h2 : i = pid ∧ s' = sIdx ∧ t' < T
    · obtain ⟨rfl, rfl, ht'⟩ := h2
      have ht'ne : t' ≠ tIdx := fun h => h1 ⟨rfl, rfl, h⟩
      have hcondE : ∃ t ∈ List.range T, t ≠ tIdx ∧ ((i, s', t') : LockKey) = (i, s', t) :=
        ⟨t', List.mem_range.mpr ht', ht'ne, rfl⟩
      have hcond2 : i = i ∧ s' = s' ∧ t' < T := ⟨rfl, rfl, ht'⟩
      rw [if_pos hcondE, if_pos hcond2]
    · rw [if_neg h2]
      have hno : ¬ ∃ t ∈ List.range T, t ≠ tIdx ∧ ((i, s', t') : LockKey) = (pid, sIdx, t) := by
        rintro ⟨t, htm, hne, hk⟩
        simp only [Prod.mk.injEq] at hk
        obtain ⟨rfl, rfl, rfl⟩ := hk
        exact h2 ⟨rfl, rfl, List.mem_range.mp htm⟩
      have hne2 : ((i, s', t') : LockKey) ≠ (pid, sIdx, tIdx) := by
        intro hk
        simp only [Prod.mk.injEq] at hk
        exact h1 ⟨hk.1, hk.2.1, hk.2.2⟩
      rw [if_neg hno, dictFind_dictSet, if_neg hne2]

/-- An unresolvable name leaves the dict unchanged. -/
theorem lockParticipant_none (ps : List Participant) (T sIdx tIdx : Nat)
    (n : String) (d : LockDict) (hid : idOfName ps n = none) :
    lockParticipant ps T sIdx tIdx n d = d := by
  unfold lockParticipant
  rw [hid]

/-- With pairwise-distinct names, looking a participant's name back up
recovers that participant's id. -/
theorem idOfName_self {ps : List Participant} (hnames : (ps.map (·.name)).Nodup)
    {q : Participant} (hq : q ∈ ps) : idOfName ps q.name = some q.id := by
  induction ps with
  | nil => cases hq
  | cons p rest ih =>
    rw [List.map_cons, List.nodup_cons] at hnames
    rcases List.mem_cons.mp hq with rfl | hq'
    · unfold idOfName
      rw [List.find?_cons_of_pos _ (by simp)]
      rfl
    · have hpq : p.name ≠ q.name := by
        intro h
        exact hnames.1 (h ▸ List.mem_map.mpr ⟨q, hq', rfl⟩)
      unfold idOfName
      rw [List.find?_cons_of_neg _ (by simp [hpq])]
      exact ih hnames.2 hq'

/-- A participant seated exactly once who is seated at `t1` is seated nowhere
else. -/
theorem seatCount_one_unique {x : Assignment} {i s T t1 : Nat}
    (h1 : seatCount x i s T = 1) (ht1 : t1 < T) (hx1 : x i s t1 = true) :
    ∀ t2, t2 < T → t2 ≠ t1 → x i s t2 = false := by
  intro t2 ht2 hne
  cases hx2 : x i s t2
  · rfl
  · exfalso
    have h2 := two_mem_le_countP (fun t => x i s t) (List.mem_range.mpr ht1)
      (List.mem_range.mpr ht2) (fun h => hne h.symm) hx1 hx2
    unfold seatCount at h1
    omega

/-- Combined effect of one `lockParticipant` call for a view of participant
`q` seated at `tIdx`: other sessions untouched, session-`s` rows of `q`
become exactly the decision-variable values, and rows already matching the
decision variables stay matching. -/
theorem lockParticipant_effect {ps : List Participant} {T S : Nat} {x : Assignment}
    (hnames : (ps.map (·.name)).Nodup)
    (hone : ∀ p ∈ ps, ∀ s < S, seatCount x p.id s T = 1)
    {s : Nat} (hs : s < S) {tIdx : Nat} {n : String} {q : Participant}
    (hq : q ∈ ps) (hqn : q.name = n) (hxq : x q.id s tIdx = true) (htIdx : tIdx < T)
    (d : LockDict) :
    (∀ i s'' t, s'' ≠ s →
      dictFind (lockParticipant ps T s tIdx n d) (i, s'', t) = dictFind d (i, s'', t)) ∧
    (∀ t < T, dictFind (lockParticipant ps T s tIdx n d) (q.id, s, t) = some (x q.id s t)) ∧
    (∀ i, (∀ t < T, dictFind d (i, s, t) = some (x i s t)) →
      ∀ t < T, dictFind (lockParticipant ps T s tIdx n d) (i, s, t) = some (x i s t)) := by
  have hid : idOfName ps n = some q.id := hqn ▸ idOfName_self hnames hq
  have hchar := dictFind_lockParticipant ps T s tIdx n d hid htIdx
  refine ⟨?_, ?_, ?_⟩
  · intro i s'' t hs''
    rw [hchar i s'' t, if_neg (fun h => hs'' h.2.1), if_neg (fun h => hs'' h.2.1)]
  · intro t ht
    rw [hchar q.id s t]
    by_cases htt : t = tIdx
    · subst htt
      rw [if_pos ⟨rfl, rfl, rfl⟩, hxq]
    · rw [if_neg (fun h => htt h.2.2), if_pos ⟨rfl, rfl, ht⟩,
        seatCount_one_unique (hone q hq s hs) htIdx hxq t ht htt]
  · intro i hdone t ht
    rw [hchar i s t]
    by_cases hi : i = q.id
    · subst hi
      by_cases htt : t = tIdx
      · subst htt
        rw [if_pos ⟨rfl, rfl, rfl⟩, hxq]
      · rw [if_neg (fun h => htt h.2.2), if_pos ⟨rfl, rfl, ht⟩,
          seatCount_one_unique (hone q hq s hs) htIdx hxq t ht htt]
    · rw [if_neg (fun h => hi h.1), if_neg (fun h => hi h.1)]
      exact hdone t ht

/-- Folding `lockParticipant` over the views of one table: other sessions are
untouched, x-consistent rows stay consistent, and every participant whose
name appears among the views ends with x-consistent rows. -/
theorem lockViewsFold {ps : List Participant} {T S : Nat} {x : Assignment}
    (hnames : (ps.map (·.name)).Nodup)
    (hone : ∀ p ∈ ps, ∀ s < S, seatCount x p.id s T = 1)
    {s : Nat} (hs : s < S) (tIdx : Nat) :
    ∀ (views : List ParticipantView) (d : LockDict),
      (∀ v ∈ views, ∃ q ∈ ps, q.name = v.name ∧ x q.id s tIdx = true ∧ tIdx < T) →
      (∀ i s'' t, s'' ≠ s →
        dictFind (views.foldl (fun acc v => lockParticipant ps T s tIdx v.name acc) d)
          (i, s'', t) = dictFind d (i, s'', t)) ∧
      (∀ i, (∀ t < T, dictFind d (i, s, t) = some (x i s t)) →
        ∀ t < T,
          dictFind (views.foldl (fun acc v => lockParticipant ps T s tIdx v.name acc) d)
            (i, s, t) = some (x i s t)) ∧
      (∀ v ∈ views, ∀ q ∈ ps, q.name = v.name →
        ∀ t < T,
          dictFind (views.foldl (fun acc v => lockParticipant ps T s tIdx v.name acc) d)
            (q.id, s, t) = some (x q.id s t)) := by
  intro views
  induction views with
  | nil =>
    intro d _
    exact ⟨fun _ _ _ _ => rfl, fun _ hdone => hdone, fun v hv => absurd hv (List.not_mem_nil v)⟩
  | cons v rest ih =>
    intro d hgood
    obtain ⟨q0, hq0, hq0n, hxq0, htIdx⟩ := hgood v (List.mem_cons_self _ _)
    have eff := lockParticipant_effect hnames hone hs hq0 hq0n hxq0 htIdx d
    have ihr := ih (lockParticipant ps T s tIdx v.name d)
      (fun v' hv' => hgood v' (List.mem_cons_of_mem _ hv'))
    rw [List.foldl_cons]
    refine ⟨?_, ?_, ?_⟩
    · intro i s'' t hs''
      rw [ihr.1 i s'' t hs'', eff.1 i s'' t hs'']
    · intro i hdone
      exact ihr.2.1 i (eff.2.2 i hdone)
    · intro v' hv' q hq hqn
      rcases List.mem_cons.mp hv' with rfl | hv''
      · have hidq : idOfName ps v'.name = some q.id := hqn ▸ idOfName_self hnames hq
        have hidq0 : idOfName ps v'.name = some q0.id := hq0n ▸ idOfName_self hnames hq0
        have hqid : q.id = q0.id := by
          rw [hidq] at hidq0
          exact Option.some.inj hidq0
        refine ihr.2.1 q.id (fun t ht => ?_)
        rw [hqid]
        exact eff.2.1 t ht
      · exact ihr.2.2 v' hv'' q hq hqn

/-- Folding the per-table locking over all tables of one session's decode
schema: other sessions untouched, consistent rows preserved, every listed
participant's rows made consistent. -/
theorem lockTablesFold {ps : List Participant} {T S : Nat} {x : Assignment}
    (hnames : (ps.map (·.name)).Nodup)
    (hone : ∀ p ∈ ps, ∀ s < S, seatCount x p.id s T = 1)
    {s : Nat} (hs : s < S) :
    ∀ (tables : List (Nat × List ParticipantView)) (d : LockDict),
      (∀ tbl ∈ tables, ∀ v ∈ tbl.2,
        ∃ q ∈ ps, q.name = v.name ∧ x q.id s (tbl.1 - 1) = true ∧ tbl.1 - 1 < T) →
      (∀ i s'' t, s'' ≠ s →
        dictFind (tables.foldl
          (fun acc tbl => tbl.2.foldl
            (fun acc2 v => lockParticipant ps T s (tbl.1 - 1) v.name acc2) acc) d)
          (i, s'', t) = dictFind d (i, s'', t)) ∧
      (∀ i, (∀ t < T, dictFind d (i, s, t) = some (x i s t)) →
        ∀ t < T,
          dictFind (tables.foldl
            (fun acc tbl => tbl.2.foldl
              (fun acc2 v => lockParticipant ps T s (tbl.1 - 1) v.name acc2) acc) d)
            (i, s, t) = some (x i s t)) ∧
      (∀ tbl ∈ tables, ∀ v ∈ tbl.2, ∀ q ∈ ps, q.name = v.name →
        ∀ t < T,
          dictFind (tables.foldl
            (fun acc tbl => tbl.2.foldl
              (fun acc2 v => lockParticipant ps T s (tbl.1 - 1) v.name acc2) acc) d)
            (q.id, s, t) = some (x q.id s t)) := by
  intro tables
  induction tables with
  | nil =>
    intro d _
    exact ⟨fun _ _ _ _ => rfl, fun _ hdone => hdone, fun tbl htbl => absurd htbl (List.not_mem_nil tbl)⟩
  | cons tbl rest ih =>
    intro d hgood
    have hviews := lockViewsFold hnames hone hs (tbl.1 - 1) tbl.2 d
      (hgood tbl (List.mem_cons_self _ _))
    have ihr := ih (tbl.2.foldl (fun acc2 v => lockParticipant ps T s (tbl.1 - 1) v.name acc2) d)
      (fun tbl' htbl' => hgood tbl' (List.mem_cons_of_mem _ htbl'))
    rw [List.foldl_cons]
    refine ⟨?_, ?_, ?_⟩
    · intro i s'' t hs''
      rw [ihr.1 i s'' t hs'', hviews.1 i s'' t hs'']
    · intro i hdone
      exact ihr.2.1 i (hviews.2.1 i hdone)
    · intro tbl' htbl' v hv q hq hqn
      rcases List.mem_cons.mp htbl' with rfl | htbl''
      · exact ihr.2.1 q.id (hviews.2.2 v hv q hq hqn)
      · exact ihr.2.2 tbl' htbl'' v hv q hq hqn

/-- Structure of a decoded session's table list: every entry is table
`t0 + 1` for some `t0 < T`, listing the views of the participants seated at
`t0`. -/
theorem decodeSessionData_tables_shape {ps : List Participant} {x : Assignment}
    {T s : Nat} {tbl : Nat × List ParticipantView}
    (htbl : tbl ∈ (decodeSessionData ps x T s).tables) :
    ∃ t0, t0 < T ∧ tbl.1 = t0 + 1 ∧ tbl.2 = (decodeTable ps x s t0).map toView := by
  unfold decodeSessionData at htbl
  simp only [List.mem_filterMap] at htbl
  obtain ⟨t0, ht0, hopt⟩ := htbl
  by_cases hemp : ((decodeTable ps x s t0).map toView).isEmpty
  · rw [if_pos hemp] at hopt
    cases hopt
  · rw [if_neg hemp] at hopt
    cases hopt
    exact ⟨t0, List.mem_range.mp ht0, rfl, rfl⟩

/-- A participant seated at `t0 < T` appears in the decoded session's entry
for table `t0 + 1`. -/
theorem decodeSessionData_covers {ps : List Participant} {x : Assignment}
    {T s : Nat} {p : Participant} (hp : p ∈ ps) {t0 : Nat} (ht0 : t0 < T)
    (hx : x p.id s t0 = true) :
    (t0 + 1, (decodeTable ps x s t0).map toView) ∈ (decodeSessionData ps x T s).tables := by
  unfold decodeSessionData
  simp only [List.mem_filterMap]
  refine ⟨t0, List.mem_range.mpr ht0, ?_⟩
  have hne : ((decodeTable ps x s t0).map toView).isEmpty = false := by
    have : toView p ∈ (decodeTable ps x s t0).map toView :=
      List.mem_map.mpr ⟨p, (mem_decodeTable hp).mpr hx, rfl⟩
    rcases hl : (decodeTable ps x s t0).map toView with _ | _
    · rw [hl] at this
      cases this
    · rfl
  rw [if_neg (by rw [hne]; exact Bool.false_ne_true)]

/-- Effect of `_lock_batch_assignments` on one decoded session: other
sessions' keys are untouched, x-consistent session-`s` rows stay consistent,
and EVERY participant's session-`s` rows become exactly the decision-variable
values. -/
theorem lockBatch_decoded {ps : List Participant} {T S : Nat} {x : Assignment}
    (hnames : (ps.map (·.name)).Nodup)
    (hone : ∀ p ∈ ps, ∀ s < S, seatCount x p.id s T = 1)
    {s : Nat} (hs : s < S) (d : LockDict) :
    (∀ i s'' t, s'' ≠ s →
      dictFind (lockBatchAssignments ps T (decodeSessionData ps x T s) d) (i, s'', t)
        = dictFind d (i, s'', t)) ∧
    (∀ i, (∀ t < T, dictFind d (i, s, t) = some (x i s t)) →
      ∀ t < T, dictFind (lockBatchAssignments ps T (decodeSessionData ps x T s) d) (i, s, t)
        = some (x i s t)) ∧
    (∀ p ∈ ps, ∀ t < T,
      dictFind (lockBatchAssignments ps T (decodeSessionData ps x T s) d) (p.id, s, t)
        = some (x p.id s t)) := by
  have hgood : ∀ tbl ∈ (decodeSessionData ps x T s).tables, ∀ v ∈ tbl.2,
      ∃ q ∈ ps, q.name = v.name ∧ x q.id s (tbl.1 - 1) = true ∧ tbl.1 - 1 < T := by
    intro tbl htbl v hv
    obtain ⟨t0, ht0, h1, h2⟩ := decodeSessionData_tables_shape htbl
    rw [h2] at hv
    obtain ⟨q, hqmem, rfl⟩ := List.mem_map.mp hv
    have hq := List.mem_filter.mp hqmem
    rw [h1]
    exact ⟨q, hq.1, rfl, by simpa using hq.2, by simpa using ht0⟩
  have hfold := lockTablesFold hnames hone hs (decodeSessionData ps x T s).tables d hgood
  refine ⟨hfold.1, hfold.2.1, ?_⟩
  intro p hp t ht
  have hone_p := hone p hp s hs
  have hpos : 0 < (List.range T).countP (fun t => x p.id s t) := by
    unfold seatCount at hone_p
    omega
  obtain ⟨t0, ht0mem, hxt0⟩ := List.countP_pos_iff.mp hpos
  have ht0 : t0 < T := List.mem_range.mp ht0mem
  have hcover := decodeSessionData_covers hp ht0 hxt0
  have := hfold.2.2 (t0 + 1, (decodeTable ps x s t0).map toView) hcover (toView p)
    (List.mem_map.mpr ⟨p, (mem_decodeTable hp).mpr hxt0, rfl⟩) p hp rfl t ht
  exact this

/-- Locking further decoded sessions (of the same solution) preserves
x-consistent rows of any session. -/
theorem lockSessionsFold_preserves {ps : List Participant} {T S : Nat} {x : Assignment}
    (hnames : (ps.map (·.name)).Nodup)
    (hone : ∀ p ∈ ps, ∀ s < S, seatCount x p.id s T = 1) :
    ∀ (ss : List Nat) (d : LockDict), (∀ s' ∈ ss, s' < S) →
      ∀ s0, s0 < S → ∀ i, (∀ t < T, dictFind d (i, s0, t) = some (x i s0 t)) →
        ∀ t < T,
          dictFind (ss.foldl
            (fun acc s' => lockBatchAssignments ps T (decodeSessionData ps x T s') acc) d)
            (i, s0, t) = some (x i s0 t) := by
  intro ss
  induction ss with
  | nil => intro d _ s0 _ i hdone t ht; exact hdone t ht
  | cons s1 rest ih =>
    intro d hss s0 hs0 i hdone t ht
    have hs1 : s1 < S := hss s1 (List.mem_cons_self _ _)
    have hbatch := lockBatch_decoded hnames hone hs1 d
    rw [List.foldl_cons]
    refine ih _ (fun s' hs' => hss s' (List.mem_cons_of_mem _ hs')) s0 hs0 i ?_ t ht
    intro t' ht'
    by_cases h10 : s1 = s0
    · subst h10
      exact hbatch.2.1 i hdone t' ht'
    · rw [hbatch.1 i s0 t' (fun h => h10 h.symm)]
      exact hdone t' ht'

/-- After locking every decoded session of a list, every listed session's
rows match the decision variables for every participant. -/
theorem lockSessionsFold_all {ps : List Participant} {T S : Nat} {x : Assignment}
    (hnames : (ps.map (·.name)).Nodup)
    (hone : ∀ p ∈ ps, ∀ s < S, seatCount x p.id s T = 1) :
    ∀ (ss : List Nat) (d : LockDict), (∀ s' ∈ ss, s' < S) →
      ∀ s0 ∈ ss, ∀ p ∈ ps, ∀ t < T,
        dictFind (ss.foldl
          (fun acc s' => lockBatchAssignments ps T (decodeSessionData ps x T s') acc) d)
          (p.id, s0, t) = some (x p.id s0 t) := by
  intro ss
  induction ss with
  | nil => intro d _ s0 hs0; cases hs0
  | cons s1 rest ih =>
    intro d hss s0 hs0 p hp t ht
    have hs1 : s1 < S := hss s1 (List.mem_cons_self _ _)
    have hbatch := lockBatch_decoded hnames hone hs1 d
    rw [List.foldl_cons]
    rcases List.mem_cons.mp hs0 with rfl | hs0'
    · exact lockSessionsFold_preserves hnames hone rest _
        (fun s' hs' => hss s' (List.mem_cons_of_mem _ hs')) s0 hs1 p.id
        (hbatch.2.2 p hp) t ht
    · exact ih _ (fun s' hs' => hss s' (List.mem_cons_of_mem _ hs')) s0 hs0' p hp t ht

/-- Claim C10 (status: confirmed).  Invariant of the incremental commit loop
`for assignment in result["assignments"]: _lock_batch_assignments(...)`:
under pairwise-distinct participant names, after locking all decoded sessions
of a batch's solution, the locked dict maps `(p.id, s, t)` to `true` for
exactly the one table where the decoded assignment seats `p` and to `false`
for every other table — name-based id recovery resolves each decoded view to
the right participant. -/
theorem lock_batch_invariant (ps : List Participant) (T S : Nat) (x : Assignment)
    (d0 : LockDict) (hnames : (ps.map (·.name)).Nodup)
    (hone : ∀ p ∈ ps, ∀ s < S, seatCount x p.id s T = 1) :
    ∀ s < S, ∀ p ∈ ps,
      ∃ tstar, tstar < T ∧ p ∈ decodeTable ps x s tstar ∧
        dictFind ((decodeAssignments ps x S T).foldl
          (fun d a => lockBatchAssignments ps T a d) d0) (p.id, s, tstar) = some true ∧
        ∀ t < T, t ≠ tstar →
          dictFind ((decodeAssignments ps x S T).foldl
            (fun d a => lockBatchAssignments ps T a d) d0) (p.id, s, t) = some false := by
  intro s hs p hp
  have hfold_eq : (decodeAssignments ps x S T).foldl
      (fun d a => lockBatchAssignments ps T a d) d0
      = (List.range S).foldl
          (fun acc s' => lockBatchAssignments ps T (decodeSessionData ps x T s') acc) d0 := by
    unfold decodeAssignments
    rw [List.foldl_map]
  have hall := lockSessionsFold_all hnames hone (List.range S) d0
    (fun s' hs' => List.mem_range.mp hs') s (List.mem_range.mpr hs) p hp
  have hone_p := hone p hp s hs
  have hpos : 0 < (List.range T).countP (fun t => x p.id s t) := by
    unfold seatCount at hone_p
    omega
  obtain ⟨tstar, htmem, hxt⟩ := List.countP_pos_iff.mp hpos
  have htT : tstar < T := List.mem_range.mp htmem
  refine ⟨tstar, htT, (mem_decodeTable hp).mpr hxt, ?_, ?_⟩
  · rw [hfold_eq, hall tstar htT, hxt]
  · intro t ht htne
    rw [hfold_eq, hall t ht,
      seatCount_one_unique hone_p htT hxt t ht htne]

/-- Witness for C10 on a concrete two-participant, two-table, one-session
solution. -/
theorem lock_batch_invariant_witness :
    (([johnP, janeP].map (·.name)).Nodup ∧
      ∀ p ∈ [johnP, janeP], ∀ s < 1, seatCount xSwapCx p.id s 2 = 1) ∧
    ∀ s < 1, ∀ p ∈ [johnP, janeP],
      ∃ tstar, tstar < 2 ∧ p ∈ decodeTable [johnP, janeP] xSwapCx s tstar ∧
        dictFind ((decodeAssignments [johnP, janeP] xSwapCx 1 2).foldl
          (fun d a => lockBatchAssignments [johnP, janeP] 2 a d) []) (p.id, s, tstar)
          = some true ∧
        ∀ t < 2, t ≠ tstar →
          dictFind ((decodeAssignments [johnP, janeP] xSwapCx 1 2).foldl
            (fun d a => lockBatchAssignments [johnP, janeP] 2 a d) []) (p.id, s, t)
            = some false :=
  ⟨⟨by decide, by decide⟩,
    lock_batch_invariant [johnP, janeP] 2 1 xSwapCx [] (by decide) (by decide)⟩
